import Mathlib

/-!
Shallow embedding of the quaternion rotation library (Vector3, Quaternion,
axis-angle extraction, SLERP) over the real numbers, together with theorems
settling the specification claims about it.

The Python source computes with floats; the embedding interprets every float
operation as the corresponding exact real operation (`math.sqrt` as
`Real.sqrt`, `math.acos` as `Real.arccos`, `**` on a real exponent as `rpow`),
so all statements below are about the algorithms in exact arithmetic.
-/

namespace QuatRepo

noncomputable section

open Real

/-- Embedding of the `Vector3` class: three real components. -/
@[ext]
structure Vector3 where
  x : ℝ
  y : ℝ
  z : ℝ

namespace Vector3

/-- Embedding of `Vector3.length`: `sqrt(x*x + y*y + z*z)`. -/
def length (v : Vector3) : ℝ :=
  Real.sqrt (v.x * v.x + v.y * v.y + v.z * v.z)

/-- Embedding of `Vector3.is_zero`: all components equal to zero. -/
def is_zero (v : Vector3) : Prop :=
  v.x = 0 ∧ v.y = 0 ∧ v.z = 0

/-- Embedding of `Vector3.scale`: componentwise multiplication by a scalar. -/
def scale (v : Vector3) (s : ℝ) : Vector3 :=
  ⟨s * v.x, s * v.y, s * v.z⟩

/-- Embedding of `Vector3.normalize`: each component divided by the length,
with no zero guard, exactly as in the source. -/
def normalize (v : Vector3) : Vector3 :=
  let l := v.length
  ⟨v.x / l, v.y / l, v.z / l⟩

end Vector3

/-- Embedding of the `Quaternion` class: scalar part `w` and vector part
`x`, `y`, `z`. -/
@[ext]
structure Quaternion where
  w : ℝ
  x : ℝ
  y : ℝ
  z : ℝ

namespace Quaternion

/-- Embedding of `Quaternion.from_axis_angle`: normalize the axis when its
length differs from `1` under exact equality, then build
`(cos(angle/2), axis * sin(angle/2))`. -/
def from_axis_angle (axis : Vector3) (angle : ℝ) : Quaternion :=
  let a := if axis.length = 1 then axis else axis.normalize
  let half_angle := angle / 2
  ⟨Real.cos half_angle,
   a.x * Real.sin half_angle,
   a.y * Real.sin half_angle,
   a.z * Real.sin half_angle⟩

/-- Embedding of `Quaternion.multiply`: the Hamilton product, with the four
component formulas copied from the source. -/
def multiply (q other : Quaternion) : Quaternion :=
  ⟨q.w * other.w - q.x * other.x - q.y * other.y - q.z * other.z,
   q.w * other.x + q.x * other.w + q.y * other.z - q.z * other.y,
   q.w * other.y - q.x * other.z + q.y * other.w + q.z * other.x,
   q.w * other.z + q.x * other.y - q.y * other.x + q.z * other.w⟩

/-- Embedding of `Quaternion.conjugate`: negate the vector part. -/
def conjugate (q : Quaternion) : Quaternion :=
  ⟨q.w, -q.x, -q.y, -q.z⟩

/-- Embedding of `Quaternion.inverse`: each conjugate component divided by the
squared norm `w²+x²+y²+z²`. -/
def inverse (q : Quaternion) : Quaternion :=
  let norm_squared := q.w ^ 2 + q.x ^ 2 + q.y ^ 2 + q.z ^ 2
  ⟨q.w / norm_squared, -q.x / norm_squared, -q.y / norm_squared,
   -q.z / norm_squared⟩

/-- Embedding of `Quaternion.transform`: embed `v` as the pure quaternion
`(0, v)`, compute `(q * p) * q⁻¹` and keep the vector part. -/
def transform (q : Quaternion) (v : Vector3) : Vector3 :=
  let p : Quaternion := ⟨0, v.x, v.y, v.z⟩
  let t := (q.multiply p).multiply q.inverse
  ⟨t.x, t.y, t.z⟩

/-- Embedding of `Quaternion.scale`: multiply all four components by `s`. -/
def scale (q : Quaternion) (s : ℝ) : Quaternion :=
  ⟨s * q.w, s * q.x, s * q.y, s * q.z⟩

/-- Embedding of `Quaternion.power`: polar-form exponentiation with the two
degenerate branches of the source (`norm < 1e-10` and
`vector_magnitude < 1e-10`). -/
def power (q : Quaternion) (exponent : ℝ) : Quaternion :=
  let norm := Real.sqrt (q.w ^ 2 + q.x ^ 2 + q.y ^ 2 + q.z ^ 2)
  if norm < 1e-10 then ⟨0, 0, 0, 0⟩
  else
    let norm_pow := norm ^ exponent
    let theta := Real.arccos (q.w / norm)
    let new_w := norm_pow * Real.cos (exponent * theta)
    let vector_magnitude := Real.sqrt (q.x ^ 2 + q.y ^ 2 + q.z ^ 2)
    if vector_magnitude < 1e-10 then ⟨new_w, 0, 0, 0⟩
    else
      let factor := norm_pow * Real.sin (exponent * theta) / vector_magnitude
      ⟨new_w, q.x * factor, q.y * factor, q.z * factor⟩

/-- Squared norm of a quaternion, the quantity the source writes inline as
`w**2+x**2+y**2+z**2`. -/
def normSq (q : Quaternion) : ℝ :=
  q.w ^ 2 + q.x ^ 2 + q.y ^ 2 + q.z ^ 2

/-- Norm (magnitude) of a quaternion, as computed at the head of `power`. -/
def norm (q : Quaternion) : ℝ :=
  Real.sqrt q.normSq

/-- Magnitude of the vector part, the `vector_magnitude` of `power`. -/
def vecMag (q : Quaternion) : ℝ :=
  Real.sqrt (q.x ^ 2 + q.y ^ 2 + q.z ^ 2)

/-- The identity quaternion `(1, 0, 0, 0)`. -/
def one : Quaternion := ⟨1, 0, 0, 0⟩

/-- Componentwise negation, as used by the shortest-path branch of `slerp`. -/
def neg (q : Quaternion) : Quaternion := ⟨-q.w, -q.x, -q.y, -q.z⟩

end Quaternion

/-- Embedding of `get_rotation_axis_and_angle` from `demo_rotate.py`:
sentinel `((0,0,1), 0)` when `|w| > 0.9999`, otherwise angle `2*acos(w)` and
axis `(x,y,z)` divided by `sqrt(1 - w*w)`. -/
def get_rotation_axis_and_angle (q : Quaternion) : Vector3 × ℝ :=
  if |q.w| > 0.9999 then (⟨0, 0, 1⟩, 0)
  else
    let angle := 2 * Real.arccos q.w
    let sin_half_angle := Real.sqrt (1 - q.w * q.w)
    (⟨q.x / sin_half_angle, q.y / sin_half_angle, q.z / sin_half_angle⟩, angle)

/-- The dot product of two quaternions as computed inline in `slerp`. -/
def dotQ (q1 q2 : Quaternion) : ℝ :=
  q1.w * q2.w + q1.x * q2.x + q1.y * q2.y + q1.z * q2.z

/-- Embedding of `slerp` from `demo_slerp.py`: optionally negate `q2` when the
dot product is negative, form `rotation = q2 * q1⁻¹`, take `rotation^t` and
multiply back onto `q1`. -/
def slerp (q1 q2 : Quaternion) (t : ℝ) (shortestPath : Bool) : Quaternion :=
  let q2' :=
    if shortestPath then (if dotQ q1 q2 < 0 then q2.neg else q2) else q2
  let rotation := q2'.multiply q1.inverse
  let fraction_rotation := rotation.power t
  fraction_rotation.multiply q1

/-- The quaternion that the shortest-path branch of `slerp` actually
interpolates towards: `q2` negated when `dot(q1,q2) < 0`. -/
def slerpTarget (q1 q2 : Quaternion) : Quaternion :=
  if dotQ q1 q2 < 0 then q2.neg else q2

end

namespace Quaternion

lemma normSq_nonneg (q : Quaternion) : 0 ≤ q.normSq := by
  simp only [normSq]; positivity

lemma normSq_multiply (p q : Quaternion) :
    (p.multiply q).normSq = p.normSq * q.normSq := by
  simp only [multiply, normSq]; ring

lemma normSq_conjugate (q : Quaternion) : q.conjugate.normSq = q.normSq := by
  simp only [conjugate, normSq]; ring

lemma normSq_neg (q : Quaternion) : q.neg.normSq = q.normSq := by
  simp only [neg, normSq]; ring

lemma inverse_eq_conjugate (q : Quaternion) (h : q.normSq = 1) :
    q.inverse = q.conjugate := by
  simp only [normSq] at h
  simp [inverse, conjugate, h, neg_div]

lemma one_multiply (q : Quaternion) : one.multiply q = q := by
  simp only [one, multiply]
  ext <;> ring

lemma multiply_one (q : Quaternion) : q.multiply one = q := by
  simp only [one, multiply]
  ext <;> ring

lemma multiply_assoc (p q r : Quaternion) :
    (p.multiply q).multiply r = p.multiply (q.multiply r) := by
  simp only [multiply]
  ext <;> ring

lemma conjugate_multiply_self (q : Quaternion) :
    q.conjugate.multiply q = ⟨q.normSq, 0, 0, 0⟩ := by
  simp only [conjugate, multiply, normSq]
  ext <;> ring

lemma norm_def (q : Quaternion) :
    q.norm = Real.sqrt (q.w ^ 2 + q.x ^ 2 + q.y ^ 2 + q.z ^ 2) := rfl

lemma vecMag_def (q : Quaternion) :
    q.vecMag = Real.sqrt (q.x ^ 2 + q.y ^ 2 + q.z ^ 2) := rfl

lemma sq_norm (q : Quaternion) :
    q.norm ^ 2 = q.w ^ 2 + q.x ^ 2 + q.y ^ 2 + q.z ^ 2 :=
  Real.sq_sqrt q.normSq_nonneg

lemma sq_vecMag (q : Quaternion) :
    q.vecMag ^ 2 = q.x ^ 2 + q.y ^ 2 + q.z ^ 2 :=
  Real.sq_sqrt (by positivity)

lemma vecMag_nonneg (q : Quaternion) : 0 ≤ q.vecMag :=
  Real.sqrt_nonneg _

lemma abs_w_le_norm (q : Quaternion) : |q.w| ≤ q.norm := by
  rw [← Real.sqrt_sq_eq_abs, norm_def]
  apply Real.sqrt_le_sqrt
  nlinarith [sq_nonneg q.x, sq_nonneg q.y, sq_nonneg q.z]

lemma vecMag_eq_zero_iff (q : Quaternion) :
    q.vecMag = 0 ↔ q.x = 0 ∧ q.y = 0 ∧ q.z = 0 := by
  constructor
  · intro h
    have hsum : q.x ^ 2 + q.y ^ 2 + q.z ^ 2 = 0 :=
      le_antisymm (Real.sqrt_eq_zero'.mp h) (by positivity)
    refine ⟨pow_eq_zero_iff two_ne_zero |>.mp ?_,
      pow_eq_zero_iff two_ne_zero |>.mp ?_,
      pow_eq_zero_iff two_ne_zero |>.mp ?_⟩
    · exact le_antisymm (by nlinarith [sq_nonneg q.y, sq_nonneg q.z])
        (sq_nonneg _)
    · exact le_antisymm (by nlinarith [sq_nonneg q.x, sq_nonneg q.z])
        (sq_nonneg _)
    · exact le_antisymm (by nlinarith [sq_nonneg q.x, sq_nonneg q.y])
        (sq_nonneg _)
  · rintro ⟨hx, hy, hz⟩
    simp [vecMag_def, hx, hy, hz]

lemma power_if_small (q : Quaternion) (e : ℝ) (h : q.norm < 1e-10) :
    q.power e = ⟨0, 0, 0, 0⟩ := by
  rw [norm_def] at h
  simp only [power]
  rw [if_pos h]

lemma power_if_scalar (q : Quaternion) (e : ℝ) (h1 : ¬q.norm < 1e-10)
    (h2 : q.vecMag < 1e-10) :
    q.power e =
      ⟨q.norm ^ e * Real.cos (e * Real.arccos (q.w / q.norm)), 0, 0, 0⟩ := by
  rw [norm_def] at h1
  rw [vecMag_def] at h2
  simp only [power, norm_def]
  rw [if_neg h1, if_pos h2]

lemma power_if_general (q : Quaternion) (e : ℝ) (h1 : ¬q.norm < 1e-10)
    (h2 : ¬q.vecMag < 1e-10) :
    q.power e =
      ⟨q.norm ^ e * Real.cos (e * Real.arccos (q.w / q.norm)),
       q.x * (q.norm ^ e * Real.sin (e * Real.arccos (q.w / q.norm)) /
         q.vecMag),
       q.y * (q.norm ^ e * Real.sin (e * Real.arccos (q.w / q.norm)) /
         q.vecMag),
       q.z * (q.norm ^ e * Real.sin (e * Real.arccos (q.w / q.norm)) /
         q.vecMag)⟩ := by
  rw [norm_def] at h1
  rw [vecMag_def] at h2
  simp only [power, norm_def, vecMag_def]
  rw [if_neg h1, if_neg h2]

lemma norm_pos_of_not_small (q : Quaternion) (h : ¬q.norm < 1e-10) :
    0 < q.norm :=
  lt_of_lt_of_le (by norm_num) (not_lt.mp h)

lemma div_w_norm_mem (q : Quaternion) (h : ¬q.norm < 1e-10) :
    -1 ≤ q.w / q.norm ∧ q.w / q.norm ≤ 1 := by
  have hn_pos := q.norm_pos_of_not_small h
  have hw := abs_le.mp q.abs_w_le_norm
  constructor
  · rw [le_div_iff hn_pos]
    linarith [hw.1]
  · rw [div_le_one hn_pos]
    exact hw.2

lemma cos_arccos_w (q : Quaternion) (h : ¬q.norm < 1e-10) :
    Real.cos (Real.arccos (q.w / q.norm)) = q.w / q.norm :=
  Real.cos_arccos (q.div_w_norm_mem h).1 (q.div_w_norm_mem h).2

lemma sin_arccos_w (q : Quaternion) (h : ¬q.norm < 1e-10) :
    Real.sin (Real.arccos (q.w / q.norm)) = q.vecMag / q.norm := by
  have hn_pos := q.norm_pos_of_not_small h
  have hkey : 1 - (q.w / q.norm) ^ 2 = (q.vecMag / q.norm) ^ 2 := by
    rw [div_pow, div_pow, sq_vecMag]
    field_simp
    linarith [q.sq_norm]
  rw [Real.sin_arccos, hkey,
    Real.sqrt_sq (div_nonneg q.vecMag_nonneg (le_of_lt hn_pos))]

lemma power_zero (q : Quaternion) (h : ¬q.norm < 1e-10) :
    q.power 0 = one := by
  by_cases hv : q.vecMag < 1e-10
  · rw [q.power_if_scalar 0 h hv]
    simp [one, Real.rpow_zero]
  · rw [q.power_if_general 0 h hv]
    simp [one, Real.rpow_zero]

lemma power_one (q : Quaternion) (h : ¬q.norm < 1e-10)
    (hv : q.vecMag = 0 ∨ 1e-10 ≤ q.vecMag) : q.power 1 = q := by
  have hn_pos := q.norm_pos_of_not_small h
  have hn_ne : q.norm ≠ 0 := ne_of_gt hn_pos
  have hcos := q.cos_arccos_w h
  have hw_eq : q.norm ^ (1:ℝ) * Real.cos (1 * Real.arccos (q.w / q.norm)) =
      q.w := by
    rw [Real.rpow_one, one_mul, hcos]
    field_simp
  rcases hv with hv | hv
  · obtain ⟨hx, hy, hz⟩ := q.vecMag_eq_zero_iff.mp hv
    rw [q.power_if_scalar 1 h (by rw [hv]; norm_num)]
    exact Quaternion.ext hw_eq hx.symm hy.symm hz.symm
  · have hv' : ¬q.vecMag < 1e-10 := not_lt.mpr hv
    have hvm_ne : q.vecMag ≠ 0 :=
      ne_of_gt (lt_of_lt_of_le (by norm_num) hv)
    have hfac : q.norm ^ (1:ℝ) *
        Real.sin (1 * Real.arccos (q.w / q.norm)) / q.vecMag = 1 := by
      rw [Real.rpow_one, one_mul, q.sin_arccos_w h]
      field_simp
    rw [q.power_if_general 1 h hv', hfac]
    exact Quaternion.ext hw_eq (mul_one q.x) (mul_one q.y) (mul_one q.z)

lemma power_two (q : Quaternion) (h : ¬q.norm < 1e-10)
    (hv : q.vecMag = 0 ∨ 1e-10 ≤ q.vecMag) : q.power 2 = q.multiply q := by
  have hn_pos := q.norm_pos_of_not_small h
  have hn_ne : q.norm ≠ 0 := ne_of_gt hn_pos
  have hcos := q.cos_arccos_w h
  have harc : (2:ℝ) * Real.arccos (q.w / q.norm) =
      2 * Real.arccos (q.w / q.norm) := rfl
  have hw_eq : q.norm ^ (2:ℝ) * Real.cos (2 * Real.arccos (q.w / q.norm)) =
      q.w * q.w - q.x * q.x - q.y * q.y - q.z * q.z := by
    rw [Real.rpow_two, Real.cos_two_mul, hcos]
    have hexp : q.norm ^ 2 * (2 * (q.w / q.norm) ^ 2 - 1) =
        2 * q.w ^ 2 - q.norm ^ 2 := by
      field_simp
    rw [hexp, q.sq_norm]
    ring
  rcases hv with hv | hv
  · obtain ⟨hx, hy, hz⟩ := q.vecMag_eq_zero_iff.mp hv
    rw [q.power_if_scalar 2 h (by rw [hv]; norm_num)]
    refine Quaternion.ext hw_eq ?_ ?_ ?_ <;>
      simp [multiply, hx, hy, hz]
  · have hv' : ¬q.vecMag < 1e-10 := not_lt.mpr hv
    have hvm_ne : q.vecMag ≠ 0 :=
      ne_of_gt (lt_of_lt_of_le (by norm_num) hv)
    have hfac : q.norm ^ (2:ℝ) *
        Real.sin (2 * Real.arccos (q.w / q.norm)) / q.vecMag = 2 * q.w := by
      rw [Real.rpow_two, Real.sin_two_mul, hcos, q.sin_arccos_w h]
      field_simp
      ring
    rw [q.power_if_general 2 h hv', hfac]
    refine Quaternion.ext hw_eq ?_ ?_ ?_ <;>
      (simp only [multiply]; ring)

end Quaternion

end QuatRepo

namespace QuatRepo

open Quaternion

/-- Claim C6: `multiply` implements the Hamilton product: with
`i=(0,1,0,0)`, `j=(0,0,1,0)`, `k=(0,0,0,1)` it satisfies
`i*i = j*j = k*k = (-1,0,0,0)`, `i*j = k`, `j*k = i`, `k*i = j`, and the
anticommuted products are negated: `j*i = -k`, `k*j = -i`, `i*k = -j`. -/
theorem hamilton_product_table :
    (Quaternion.mk 0 1 0 0).multiply ⟨0, 1, 0, 0⟩ = ⟨-1, 0, 0, 0⟩ ∧
    (Quaternion.mk 0 0 1 0).multiply ⟨0, 0, 1, 0⟩ = ⟨-1, 0, 0, 0⟩ ∧
    (Quaternion.mk 0 0 0 1).multiply ⟨0, 0, 0, 1⟩ = ⟨-1, 0, 0, 0⟩ ∧
    (Quaternion.mk 0 1 0 0).multiply ⟨0, 0, 1, 0⟩ = ⟨0, 0, 0, 1⟩ ∧
    (Quaternion.mk 0 0 1 0).multiply ⟨0, 0, 0, 1⟩ = ⟨0, 1, 0, 0⟩ ∧
    (Quaternion.mk 0 0 0 1).multiply ⟨0, 1, 0, 0⟩ = ⟨0, 0, 1, 0⟩ ∧
    (Quaternion.mk 0 0 1 0).multiply ⟨0, 1, 0, 0⟩ = ⟨0, 0, 0, -1⟩ ∧
    (Quaternion.mk 0 0 0 1).multiply ⟨0, 0, 1, 0⟩ = ⟨0, -1, 0, 0⟩ ∧
    (Quaternion.mk 0 1 0 0).multiply ⟨0, 0, 0, 1⟩ = ⟨0, 0, -1, 0⟩ := by
  refine ⟨?_, ?_, ?_, ?_, ?_, ?_, ?_, ?_, ?_⟩ <;> norm_num [Quaternion.multiply]

/-- Claim C5: for every quaternion with nonzero squared norm, `inverse` is the
conjugate scaled by `1/(w²+x²+y²+z²)`, and `q.multiply(q.inverse())` is the
identity quaternion exactly. -/
theorem inverse_spec_round_trip (q : Quaternion) (h : q.normSq ≠ 0) :
    q.inverse = q.conjugate.scale (1 / q.normSq) ∧
    q.multiply q.inverse = Quaternion.one := by
  have h' : q.w ^ 2 + q.x ^ 2 + q.y ^ 2 + q.z ^ 2 ≠ 0 := by
    simpa [Quaternion.normSq] using h
  constructor
  · simp only [Quaternion.inverse, Quaternion.conjugate, Quaternion.scale,
      Quaternion.normSq]
    ext <;> ring
  · simp only [Quaternion.inverse, Quaternion.multiply, Quaternion.one]
    ext <;> field_simp <;> ring

/-- Witness for C5 at the concrete quaternion `(1,1,0,0)`. -/
theorem inverse_spec_round_trip_witness :
    (Quaternion.mk 1 1 0 0).multiply (Quaternion.mk 1 1 0 0).inverse =
      Quaternion.one :=
  (inverse_spec_round_trip ⟨1, 1, 0, 0⟩ (by norm_num [Quaternion.normSq])).2

/-- Claim C10: the norm of `p.multiply(q)` is `norm(p) * norm(q)`; in
particular the product of two unit quaternions is a unit quaternion. -/
theorem norm_multiplicative (p q : Quaternion) :
    (p.multiply q).norm = p.norm * q.norm ∧
    (p.norm = 1 → q.norm = 1 → (p.multiply q).norm = 1) := by
  have hmain : (p.multiply q).norm = p.norm * q.norm := by
    simp only [Quaternion.norm, normSq_multiply]
    exact Real.sqrt_mul p.normSq_nonneg _
  exact ⟨hmain, fun hp hq => by rw [hmain, hp, hq, mul_one]⟩

/-- Witness for C10: the product of the unit quaternions `i` and `j` is a
unit quaternion. -/
theorem norm_multiplicative_witness :
    ((Quaternion.mk 0 1 0 0).multiply ⟨0, 0, 1, 0⟩).norm = 1 :=
  (norm_multiplicative ⟨0, 1, 0, 0⟩ ⟨0, 0, 1, 0⟩).2
    (by norm_num [Quaternion.norm, Quaternion.normSq])
    (by norm_num [Quaternion.norm, Quaternion.normSq])

/-- Claim C8: `from_axis_angle` normalizes the axis exactly when
`axis.length() != 1` under exact equality, and returns
`(cos(angle/2), axis·sin(angle/2))`; a length-one axis is used as-is. -/
theorem from_axis_angle_normalization (axis : Vector3) (angle : ℝ) :
    (axis.length = 1 →
      Quaternion.from_axis_angle axis angle =
        ⟨Real.cos (angle / 2), axis.x * Real.sin (angle / 2),
         axis.y * Real.sin (angle / 2), axis.z * Real.sin (angle / 2)⟩) ∧
    (axis.length ≠ 1 →
      Quaternion.from_axis_angle axis angle =
        ⟨Real.cos (angle / 2), axis.normalize.x * Real.sin (angle / 2),
         axis.normalize.y * Real.sin (angle / 2),
         axis.normalize.z * Real.sin (angle / 2)⟩) := by
  constructor <;> intro h <;> simp [Quaternion.from_axis_angle, h]

/-- Witness for C8 at the exactly-unit axis `(0,0,1)` and the non-unit axis
`(0,0,2)`. -/
theorem from_axis_angle_normalization_witness :
    Quaternion.from_axis_angle ⟨0, 0, 1⟩ 0 =
      ⟨Real.cos (0 / 2), 0 * Real.sin (0 / 2), 0 * Real.sin (0 / 2),
       1 * Real.sin (0 / 2)⟩ ∧
    Quaternion.from_axis_angle ⟨0, 0, 2⟩ 0 =
      ⟨Real.cos (0 / 2),
       (Vector3.mk 0 0 2).normalize.x * Real.sin (0 / 2),
       (Vector3.mk 0 0 2).normalize.y * Real.sin (0 / 2),
       (Vector3.mk 0 0 2).normalize.z * Real.sin (0 / 2)⟩ :=
  ⟨(from_axis_angle_normalization ⟨0, 0, 1⟩ 0).1
      (by norm_num [Vector3.length, Real.sqrt_one]),
   (from_axis_angle_normalization ⟨0, 0, 2⟩ 0).2
      (by norm_num [Vector3.length, Real.sqrt_eq_one])⟩

/-- Claim C9: `Vector3.normalize` has no zero guard: its division by `length`
degenerates exactly on the vectors `is_zero` accepts (those are exactly the
vectors of length zero), and on every non-zero vector it returns the input
scaled by `1/length()`. -/
theorem normalize_no_guard (v : Vector3) :
    (v.length = 0 ↔ v.is_zero) ∧
    (¬v.is_zero → v.normalize = v.scale (1 / v.length)) := by
  constructor
  · constructor
    · intro h
      rw [Vector3.length, Real.sqrt_eq_zero'] at h
      have hx : v.x * v.x = 0 :=
        le_antisymm (by nlinarith [mul_self_nonneg v.y, mul_self_nonneg v.z])
          (mul_self_nonneg v.x)
      have hy : v.y * v.y = 0 :=
        le_antisymm (by nlinarith [mul_self_nonneg v.x, mul_self_nonneg v.z])
          (mul_self_nonneg v.y)
      have hz : v.z * v.z = 0 :=
        le_antisymm (by nlinarith [mul_self_nonneg v.x, mul_self_nonneg v.y])
          (mul_self_nonneg v.z)
      exact ⟨mul_self_eq_zero.mp hx, mul_self_eq_zero.mp hy,
        mul_self_eq_zero.mp hz⟩
    · rintro ⟨hx, hy, hz⟩
      simp [Vector3.length, hx, hy, hz]
  · intro _
    simp only [Vector3.normalize, Vector3.scale]
    ext <;> ring

/-- Witness for C9 at the non-zero vector `(3,4,0)`. -/
theorem normalize_no_guard_witness :
    (Vector3.mk 3 4 0).normalize =
      (Vector3.mk 3 4 0).scale (1 / (Vector3.mk 3 4 0).length) :=
  (normalize_no_guard ⟨3, 4, 0⟩).2 (by norm_num [Vector3.is_zero])

/-- Claim C3: `power` realizes its two degenerate branches exactly as
specified: norm below `1e-10` yields the zero quaternion; otherwise a vector
part below `1e-10` in magnitude yields `(new_w, 0, 0, 0)` with
`new_w = n^e * cos(e * acos(w/n))`; otherwise each vector component is scaled
by `factor = n^e * sin(e * acos(w/n)) / vecMag`. -/
theorem power_branch_structure (q : Quaternion) (e : ℝ) :
    (q.norm < 1e-10 → q.power e = ⟨0, 0, 0, 0⟩) ∧
    (¬q.norm < 1e-10 → q.vecMag < 1e-10 →
      q.power e =
        ⟨q.norm ^ e * Real.cos (e * Real.arccos (q.w / q.norm)), 0, 0, 0⟩) ∧
    (¬q.norm < 1e-10 → ¬q.vecMag < 1e-10 →
      q.power e =
        ⟨q.norm ^ e * Real.cos (e * Real.arccos (q.w / q.norm)),
         q.x * (q.norm ^ e * Real.sin (e * Real.arccos (q.w / q.norm)) /
           q.vecMag),
         q.y * (q.norm ^ e * Real.sin (e * Real.arccos (q.w / q.norm)) /
           q.vecMag),
         q.z * (q.norm ^ e * Real.sin (e * Real.arccos (q.w / q.norm)) /
           q.vecMag)⟩) := by
  simp only [Quaternion.norm, Quaternion.normSq, Quaternion.vecMag]
  refine ⟨fun h => ?_, fun h1 h2 => ?_, fun h1 h2 => ?_⟩
  · simp only [Quaternion.power]
    rw [if_pos h]
  · simp only [Quaternion.power]
    rw [if_neg h1, if_pos h2]
  · simp only [Quaternion.power]
    rw [if_neg h1, if_neg h2]

/-- Witness for C3: the zero quaternion falls into the near-zero-norm branch
and `power` returns the zero quaternion rather than failing. -/
theorem power_branch_structure_witness :
    (Quaternion.mk 0 0 0 0).power 1 = ⟨0, 0, 0, 0⟩ :=
  (power_branch_structure ⟨0, 0, 0, 0⟩ 1).1
    (by norm_num [Quaternion.norm, Quaternion.normSq, Real.sqrt_zero])

/-- Counterexample to C2 as stated for arbitrary quaternions: the zero
quaternion has `power(0) = (0,0,0,0)`, not the identity, and the quaternion
`(1, 10⁻¹¹, 0, 0)` (vector magnitude below the `1e-10` cutoff but not zero)
has `power(1)` different from itself, its vector part being dropped. -/
theorem power_laws_counterexample :
    (Quaternion.mk 0 0 0 0).power 0 ≠ Quaternion.one ∧
    (Quaternion.mk 1 (1 / 10 ^ 11) 0 0).power 1 ≠
      Quaternion.mk 1 (1 / 10 ^ 11) 0 0 := by
  constructor
  · rw [Quaternion.power_if_small ⟨0, 0, 0, 0⟩ 0
      (by rw [Quaternion.norm_def]; norm_num [Real.sqrt_zero])]
    intro hcontra
    have hw := congrArg Quaternion.w hcontra
    norm_num [Quaternion.one] at hw
  · have hA : ¬(Quaternion.mk 1 (1 / 10 ^ 11) 0 0).norm < 1e-10 := by
      have h1 : (1:ℝ) ≤ (Quaternion.mk 1 (1 / 10 ^ 11) 0 0).norm := by
        rw [Quaternion.norm_def]
        calc (1:ℝ) = Real.sqrt 1 := Real.sqrt_one.symm
          _ ≤ _ := Real.sqrt_le_sqrt (by norm_num)
      push_neg
      calc (1e-10 : ℝ) ≤ 1 := by norm_num
        _ ≤ _ := h1
    have hB : (Quaternion.mk 1 (1 / 10 ^ 11) 0 0).vecMag < 1e-10 := by
      rw [Quaternion.vecMag_def]
      have harg : ((1:ℝ) / 10 ^ 11) ^ 2 + (0:ℝ) ^ 2 + (0:ℝ) ^ 2 =
          ((1:ℝ) / 10 ^ 11) ^ 2 := by norm_num
      rw [harg, Real.sqrt_sq (by norm_num)]
      norm_num
    rw [Quaternion.power_if_scalar ⟨1, 1 / 10 ^ 11, 0, 0⟩ 1 hA hB]
    intro hcontra
    have hx := congrArg Quaternion.x hcontra
    norm_num at hx

/-- Claim C2 (amended): the power laws `power(0) = (1,0,0,0)`,
`power(1) = q` and `power(2) = q*q` hold for every quaternion whose norm is
at least `1e-10` and whose vector-part magnitude is either exactly zero or at
least `1e-10`; below the norm cutoff `power` returns the zero quaternion, and
a nonzero vector part smaller than `1e-10` is dropped. -/
theorem power_laws_amended (q : Quaternion) (h : ¬q.norm < 1e-10)
    (hv : q.vecMag = 0 ∨ 1e-10 ≤ q.vecMag) :
    q.power 0 = Quaternion.one ∧ q.power 1 = q ∧
      q.power 2 = q.multiply q :=
  ⟨q.power_zero h, q.power_one h hv, q.power_two h hv⟩

/-- Witness for C2 at the unit quaternion `i = (0,1,0,0)`. -/
theorem power_laws_amended_witness :
    (Quaternion.mk 0 1 0 0).power 0 = Quaternion.one ∧
    (Quaternion.mk 0 1 0 0).power 1 = Quaternion.mk 0 1 0 0 ∧
    (Quaternion.mk 0 1 0 0).power 2 =
      (Quaternion.mk 0 1 0 0).multiply (Quaternion.mk 0 1 0 0) :=
  power_laws_amended ⟨0, 1, 0, 0⟩
    (by rw [Quaternion.norm_def]; norm_num [Real.sqrt_one])
    (Or.inr (by rw [Quaternion.vecMag_def]; norm_num [Real.sqrt_one]))

lemma multiply_mk_one (q : Quaternion) : q.multiply ⟨1, 0, 0, 0⟩ = q := by
  simp only [Quaternion.multiply]
  ext <;> ring

lemma slerp_true_eq (q1 q2 : Quaternion) (t : ℝ) :
    slerp q1 q2 t true =
      (((slerpTarget q1 q2).multiply q1.inverse).power t).multiply q1 := rfl

lemma slerpTarget_normSq (q1 q2 : Quaternion) (h2 : q2.normSq = 1) :
    (slerpTarget q1 q2).normSq = 1 := by
  rw [slerpTarget]
  split_ifs
  · rw [Quaternion.normSq_neg, h2]
  · exact h2

/-- Counterexample to C1 as stated: for the unit quaternions `q1 = (1,0,0,0)`
and `q2 = (-1,0,0,0)` the dot product is negative, the shortest-path branch
negates `q2`, and `slerp(q1,q2,1)` evaluates to `(1,0,0,0) = -q2`, which is
not componentwise equal to `q2`. -/
theorem slerp_endpoint_counterexample :
    slerp ⟨1, 0, 0, 0⟩ ⟨-1, 0, 0, 0⟩ 1 true ≠ Quaternion.mk (-1) 0 0 0 := by
  have htgt : slerpTarget ⟨1, 0, 0, 0⟩ ⟨-1, 0, 0, 0⟩ =
      Quaternion.mk 1 0 0 0 := by
    have hcond : dotQ ⟨1, 0, 0, 0⟩ ⟨-1, 0, 0, 0⟩ < 0 := by
      norm_num [dotQ]
    rw [slerpTarget, if_pos hcond]
    ext <;> norm_num [Quaternion.neg]
  have hinv : (Quaternion.mk 1 0 0 0).inverse = Quaternion.mk 1 0 0 0 := by
    simp only [Quaternion.inverse]
    ext <;> norm_num
  have hrot : (slerpTarget ⟨1, 0, 0, 0⟩ ⟨-1, 0, 0, 0⟩).multiply
      (Quaternion.mk 1 0 0 0).inverse = Quaternion.mk 1 0 0 0 := by
    rw [htgt, hinv]
    simp only [Quaternion.multiply]
    ext <;> norm_num
  have hpow : (Quaternion.mk 1 0 0 0).power 1 = Quaternion.mk 1 0 0 0 := by
    rw [Quaternion.power_if_scalar ⟨1, 0, 0, 0⟩ 1
      (by rw [Quaternion.norm_def]; norm_num [Real.sqrt_one])
      (by rw [Quaternion.vecMag_def]; norm_num [Real.sqrt_zero])]
    have hn : (Quaternion.mk 1 0 0 0).norm = 1 := by
      rw [Quaternion.norm_def]
      norm_num [Real.sqrt_one]
    rw [hn]
    ext <;> norm_num [Real.arccos_one]
  rw [slerp_true_eq, hrot, hpow, multiply_mk_one]
  intro hcontra
  have hw := congrArg Quaternion.w hcontra
  norm_num at hw

/-- Claim C1 (amended): for unit quaternions `q1, q2` with the default
`shortestPath = true`, `slerp(q1,q2,0)` is exactly `q1`; and `slerp(q1,q2,1)`
is exactly the quaternion the shortest-path branch targets — `q2` when
`dot(q1,q2) ≥ 0` and `-q2` when `dot(q1,q2) < 0` (the same rotation, reached
only up to quaternion sign) — provided the relative rotation
`target * q1⁻¹` has vector-part magnitude either exactly zero or at least
`1e-10`. -/
theorem slerp_boundary_amended (q1 q2 : Quaternion)
    (h1 : q1.normSq = 1) (h2 : q2.normSq = 1) :
    slerp q1 q2 0 true = q1 ∧
    (((slerpTarget q1 q2).multiply q1.inverse).vecMag = 0 ∨
        1e-10 ≤ ((slerpTarget q1 q2).multiply q1.inverse).vecMag →
      slerp q1 q2 1 true = slerpTarget q1 q2) := by
  have hinv : q1.inverse = q1.conjugate := Quaternion.inverse_eq_conjugate q1 h1
  have hrotSq : ((slerpTarget q1 q2).multiply q1.inverse).normSq = 1 := by
    rw [Quaternion.normSq_multiply, slerpTarget_normSq q1 q2 h2, hinv,
      Quaternion.normSq_conjugate, h1]
    norm_num
  have hrot_norm : ¬((slerpTarget q1 q2).multiply q1.inverse).norm < 1e-10 := by
    rw [Quaternion.norm, hrotSq, Real.sqrt_one]
    norm_num
  constructor
  · rw [slerp_true_eq, Quaternion.power_zero _ hrot_norm,
      Quaternion.one_multiply]
  · intro hv
    rw [slerp_true_eq, Quaternion.power_one _ hrot_norm hv,
      Quaternion.multiply_assoc, hinv, Quaternion.conjugate_multiply_self, h1,
      multiply_mk_one]

/-- Witness for C1 at `q1 = (1,0,0,0)`, `q2 = (0,1,0,0)`. -/
theorem slerp_boundary_amended_witness :
    slerp ⟨1, 0, 0, 0⟩ ⟨0, 1, 0, 0⟩ 0 true = Quaternion.mk 1 0 0 0 ∧
    slerp ⟨1, 0, 0, 0⟩ ⟨0, 1, 0, 0⟩ 1 true =
      slerpTarget ⟨1, 0, 0, 0⟩ ⟨0, 1, 0, 0⟩ := by
  have H := slerp_boundary_amended ⟨1, 0, 0, 0⟩ ⟨0, 1, 0, 0⟩
    (by norm_num [Quaternion.normSq]) (by norm_num [Quaternion.normSq])
  refine ⟨H.1, H.2 (Or.inr ?_)⟩
  have hcond : ¬dotQ ⟨1, 0, 0, 0⟩ ⟨0, 1, 0, 0⟩ < 0 := by
    norm_num [dotQ]
  have htgt : slerpTarget ⟨1, 0, 0, 0⟩ ⟨0, 1, 0, 0⟩ =
      Quaternion.mk 0 1 0 0 := by
    rw [slerpTarget, if_neg hcond]
  have hinv : (Quaternion.mk 1 0 0 0).inverse = Quaternion.mk 1 0 0 0 := by
    simp only [Quaternion.inverse]
    ext <;> norm_num
  rw [htgt, hinv]
  have hprod : (Quaternion.mk 0 1 0 0).multiply (Quaternion.mk 1 0 0 0) =
      Quaternion.mk 0 1 0 0 := by
    simp only [Quaternion.multiply]
    ext <;> norm_num
  rw [hprod, Quaternion.vecMag_def]
  norm_num [Real.sqrt_one]

lemma sandwich_vec_sq (q : Quaternion) (v : Vector3) :
    ((q.multiply ⟨0, v.x, v.y, v.z⟩).multiply q.conjugate).x *
      ((q.multiply ⟨0, v.x, v.y, v.z⟩).multiply q.conjugate).x +
    ((q.multiply ⟨0, v.x, v.y, v.z⟩).multiply q.conjugate).y *
      ((q.multiply ⟨0, v.x, v.y, v.z⟩).multiply q.conjugate).y +
    ((q.multiply ⟨0, v.x, v.y, v.z⟩).multiply q.conjugate).z *
      ((q.multiply ⟨0, v.x, v.y, v.z⟩).multiply q.conjugate).z =
    q.normSq ^ 2 * (v.x * v.x + v.y * v.y + v.z * v.z) := by
  simp only [Quaternion.multiply, Quaternion.conjugate, Quaternion.normSq]
  ring

/-- Claim C4: for a unit quaternion `q`, `transform(v)` is exactly the vector
part of `q * (0,v) * q⁻¹`, and the transformed vector has the same length
as `v`. -/
theorem transform_sandwich_length (q : Quaternion) (v : Vector3)
    (h : q.normSq = 1) :
    q.transform v =
      ⟨((q.multiply ⟨0, v.x, v.y, v.z⟩).multiply q.inverse).x,
       ((q.multiply ⟨0, v.x, v.y, v.z⟩).multiply q.inverse).y,
       ((q.multiply ⟨0, v.x, v.y, v.z⟩).multiply q.inverse).z⟩ ∧
    (q.transform v).length = v.length := by
  have hinv : q.inverse = q.conjugate := Quaternion.inverse_eq_conjugate q h
  constructor
  · rfl
  · simp only [Quaternion.transform, hinv]
    show Real.sqrt _ = v.length
    rw [Vector3.length, sandwich_vec_sq q v, h]
    norm_num

lemma get_rot_sentinel (q : Quaternion) (h : |q.w| > 0.9999) :
    get_rotation_axis_and_angle q = (⟨0, 0, 1⟩, 0) := by
  rw [get_rotation_axis_and_angle, if_pos h]

/-- Counterexample to C7 as stated: for the non-zero axis `(0,0,1)` and the
angle `θ = 1/50 ∈ (0, π)`, the quaternion built by `from_axis_angle` has
`w = cos(1/100) > 0.9999`, so the extraction returns the sentinel angle `0`
rather than `θ = 1/50`. -/
theorem axis_angle_round_trip_counterexample :
    (get_rotation_axis_and_angle
        (Quaternion.from_axis_angle ⟨0, 0, 1⟩ (1 / 50))).2 = 0 ∧
    (0 : ℝ) ≠ 1 / 50 := by
  have hw : (Quaternion.from_axis_angle ⟨0, 0, 1⟩ (1 / 50)).w =
      Real.cos (1 / 50 / 2) := rfl
  have hb : 1 - ((1:ℝ) / 50 / 2) ^ 2 / 2 ≤ Real.cos ((1:ℝ) / 50 / 2) :=
    Real.one_sub_sq_div_two_le_cos
  have hcosb : (0.9999 : ℝ) < Real.cos ((1:ℝ) / 50 / 2) := by
    have hnum : (0.9999 : ℝ) < 1 - ((1:ℝ) / 50 / 2) ^ 2 / 2 := by norm_num
    linarith
  have hguard : |(Quaternion.from_axis_angle ⟨0, 0, 1⟩ (1 / 50)).w| >
      0.9999 := by
    rw [hw, abs_of_pos (by linarith)]
    exact hcosb
  refine ⟨?_, by norm_num⟩
  rw [get_rot_sentinel _ hguard]

/-- Claim C7 (amended): for a non-zero axis and `θ ∈ (0, π)` with
`cos(θ/2) ≤ 0.9999` (so the sentinel guard does not fire), the round trip
`get_rotation_axis_and_angle(from_axis_angle(axis, θ))` returns exactly
`(axis normalized, θ)`; and every quaternion with `|w| > 0.9999` yields the
sentinel `((0,0,1), 0)`.  For `θ ∈ (0, 2·acos(0.9999))` the guard fires and
the round trip returns the sentinel instead of `θ`. -/
theorem axis_angle_round_trip_amended (axis : Vector3) (θ : ℝ)
    (hax : ¬axis.is_zero) (h0 : 0 < θ) (hπ : θ < Real.pi)
    (hguard : Real.cos (θ / 2) ≤ 0.9999) :
    get_rotation_axis_and_angle (Quaternion.from_axis_angle axis θ) =
      (axis.normalize, θ) ∧
    (∀ q : Quaternion, |q.w| > 0.9999 →
      get_rotation_axis_and_angle q = (⟨0, 0, 1⟩, 0)) := by
  have hpi := Real.pi_pos
  have hcos_pos : 0 < Real.cos (θ / 2) :=
    Real.cos_pos_of_mem_Ioo ⟨by linarith, by linarith⟩
  have hsin_pos : 0 < Real.sin (θ / 2) :=
    Real.sin_pos_of_pos_of_lt_pi (by linarith) (by linarith)
  have hng : ¬|Real.cos (θ / 2)| > 0.9999 := by
    rw [abs_of_pos hcos_pos]
    linarith
  have hu : (if axis.length = 1 then axis else axis.normalize) =
      axis.normalize := by
    by_cases hl : axis.length = 1
    · rw [if_pos hl]
      ext <;> simp [Vector3.normalize, hl]
    · rw [if_neg hl]
  have hfaa : Quaternion.from_axis_angle axis θ =
      ⟨Real.cos (θ / 2), axis.normalize.x * Real.sin (θ / 2),
       axis.normalize.y * Real.sin (θ / 2),
       axis.normalize.z * Real.sin (θ / 2)⟩ := by
    simp only [Quaternion.from_axis_angle]
    rw [hu]
  constructor
  · have hsq : (1:ℝ) - Real.cos (θ / 2) * Real.cos (θ / 2) =
        Real.sin (θ / 2) ^ 2 := by
      nlinarith [Real.sin_sq_add_cos_sq (θ / 2)]
    have hsqrt : Real.sqrt (1 - Real.cos (θ / 2) * Real.cos (θ / 2)) =
        Real.sin (θ / 2) := by
      rw [hsq, Real.sqrt_sq hsin_pos.le]
    have harc : Real.arccos (Real.cos (θ / 2)) = θ / 2 :=
      Real.arccos_cos (by linarith) (by linarith)
    rw [hfaa]
    simp only [get_rotation_axis_and_angle]
    rw [if_neg hng, hsqrt, harc]
    have hdiv : ∀ a : ℝ, a * Real.sin (θ / 2) / Real.sin (θ / 2) = a := by
      intro a
      rw [mul_div_assoc, div_self hsin_pos.ne', mul_one]
    rw [Prod.mk.injEq]
    constructor
    · ext <;> simp [hdiv]
    · ring
  · intro q hq
    exact get_rot_sentinel q hq

/-- Witness for C7 at the unit axis `(0,0,1)`, angle `π/2`, and the identity
quaternion for the sentinel branch. -/
theorem axis_angle_round_trip_amended_witness :
    get_rotation_axis_and_angle
        (Quaternion.from_axis_angle ⟨0, 0, 1⟩ (Real.pi / 2)) =
      ((Vector3.mk 0 0 1).normalize, Real.pi / 2) ∧
    get_rotation_axis_and_angle ⟨1, 0, 0, 0⟩ = (⟨0, 0, 1⟩, 0) := by
  have hpi := Real.pi_pos
  have hs2 : Real.sqrt 2 ≤ 1.9998 := by
    nlinarith [Real.sq_sqrt (show (0:ℝ) ≤ 2 by norm_num), Real.sqrt_nonneg 2]
  have hguard : Real.cos (Real.pi / 2 / 2) ≤ 0.9999 := by
    have h4 : Real.pi / 2 / 2 = Real.pi / 4 := by ring
    rw [h4, Real.cos_pi_div_four]
    linarith
  have H := axis_angle_round_trip_amended ⟨0, 0, 1⟩ (Real.pi / 2)
    (by norm_num [Vector3.is_zero]) (by positivity) (by linarith) hguard
  exact ⟨H.1, H.2 ⟨1, 0, 0, 0⟩ (by norm_num)⟩

/-- Witness for C4 at the unit quaternion `i = (0,1,0,0)` and the vector
`(1,2,3)`. -/
theorem transform_sandwich_length_witness :
    (Quaternion.mk 0 1 0 0).transform ⟨1, 2, 3⟩ =
      ⟨(((Quaternion.mk 0 1 0 0).multiply ⟨0, 1, 2, 3⟩).multiply
          (Quaternion.mk 0 1 0 0).inverse).x,
       (((Quaternion.mk 0 1 0 0).multiply ⟨0, 1, 2, 3⟩).multiply
          (Quaternion.mk 0 1 0 0).inverse).y,
       (((Quaternion.mk 0 1 0 0).multiply ⟨0, 1, 2, 3⟩).multiply
          (Quaternion.mk 0 1 0 0).inverse).z⟩ ∧
    ((Quaternion.mk 0 1 0 0).transform ⟨1, 2, 3⟩).length =
      (Vector3.mk 1 2 3).length :=
  transform_sandwich_length ⟨0, 1, 0, 0⟩ ⟨1, 2, 3⟩
    (by norm_num [Quaternion.normSq])

end QuatRepo
